import Mathlib

/-
Verification of the metadata-extraction core of a language-service plugin
(source: src/ts-util/type.ts and the plugin module).  The declaration tree,
decorators and the extracted `DocumentMeta` model are embedded shallowly;
JavaScript falsy values (`false`, `undefined`) flowing into string positions
are modelled with `Option String` (`none` standing for the non-string value),
and JavaScript runtime exceptions (property access on `undefined`) are
modelled with `Except Unit`.
-/

/-! ## JavaScript-style helpers -/

/-- JS `Array.prototype.indexOf` on a list of strings: first index or `-1`. -/
def jsIndexOfAux (x : String) : List String → Nat → Int
  | [], _ => -1
  | y :: ys, k => if y == x then (k : Int) else jsIndexOfAux x ys (k + 1)

/-- JS `list.indexOf(x)`. -/
def jsIndexOf (l : List String) (x : String) : Int :=
  jsIndexOfAux x l 0

/-- JS `list[i]` read in a string-concatenation position: out-of-range access
yields `undefined`, which coerces to the text "undefined". -/
def jsStrListGet (l : List String) (i : Int) : String :=
  if h : 0 ≤ i ∧ i.toNat < l.length then l.get ⟨i.toNat, h.2⟩ else "undefined"

/-- First index at which `pat` occurs as a contiguous sublist of `hay`. -/
def subIndex (pat : List Char) : List Char → Nat → Option Nat
  | hay, k =>
    if pat.isPrefixOf hay then some k
    else match hay with
      | [] => none
      | _ :: t => subIndex pat t (k + 1)

/-- JS `String.prototype.indexOf`: first occurrence index or `-1`. -/
def jsStrIndexOf (hay pat : String) : Int :=
  match subIndex pat.data hay.data 0 with
  | some i => (i : Int)
  | none => -1

/-! ## Declaration-tree model -/

/-- Expressions appearing as decorator arguments. -/
inductive Expr where
  | strLit (text : String)
  | numLit (value : Int)
  | objLit (keys : List String)
  | otherExpr
deriving Repr, DecidableEq

/-- The expression attached to a decorator: either a call expression with an
identifier callee, a call expression with some other callee, or a non-call. -/
inductive DecExpr where
  | callIdent (callee : String) (args : List Expr)
  | callOther (args : List Expr)
  | nonCall
deriving Repr, DecidableEq

structure Decorator where
  expression : DecExpr
deriving Repr, DecidableEq

/-- A declaration name: an identifier or some other (computed, string, ...) name. -/
inductive NameExpr where
  | ident (text : String)
  | otherName
deriving Repr, DecidableEq

/-- The syntactic kind of a class member relevant to extraction. -/
inductive MemberKind where
  | propertyDecl
  | methodDecl
  | otherMember
deriving Repr, DecidableEq

/-- A class member (`ts.ClassElement`): optional name, optional decorator
array (`none` models the `undefined` decorators field), and its kind. -/
structure ClassElement where
  name : Option NameExpr
  decorators : Option (List Decorator)
  kind : MemberKind
deriving Repr, DecidableEq

/-- A declaration-tree node.  `classDecl` carries the class name, decorators
and members; `children` are the nodes visited by `forEachChild`.  All other
node shapes are collapsed into `other` with their children. -/
inductive Node where
  | classDecl (name : Option NameExpr) (decorators : Option (List Decorator))
      (members : List ClassElement) (children : List Node)
  | other (children : List Node)

/-! ## Stencil constants (class StencilConstants) -/

def componentBuiltinMethods : List String := ["render", "hostData"]

def componentLifecycleMethods : List String :=
  ["componentWillLoad", "componentDidLoad", "componentWillUpdate",
   "componentDidUpdate", "componentDidUnload"]

def componentLifecycleDocs : List (String × String) :=
  [("componentWillLoad", "\n\nThe component is about to load and it has not rendered yet.\n\nThis is the best place to make any data updates before the first render.\n\n`componentWillLoad` will only be called once."),
   ("componentDidLoad", "\n\nThe component has loaded and has already rendered.\n\nUpdating data in this method will cause the component to re-render.\n\n`componentDidLoad` will only be called once."),
   ("componentWillUpdate", "\n\nThe component is about to update and re-render.\n\nCalled multiple times throughout the life of the component as it updates.\n\n`componentWillUpdate` is not called on the first render."),
   ("componentDidUpdate", "\n\nThe component has just re-rendered.\n\nCalled multiple times throughout the life of the component as it updates.\n\n`componentDidUpdate` is not called on the first render."),
   ("componentDidUnload", "\n\nThe component did unload and the element will be destroyed.")]

/-- JS `ComponentLifecycleDocs[name]`: a missing key yields `undefined`, which
coerces to "undefined" when concatenated into a string. -/
def lifecycleDocFor (name : String) : String :=
  match componentLifecycleDocs.find? (fun p => p.1 == name) with
  | some p => p.2
  | none => "undefined"

/-! ## DocumentMeta -/

structure WatchedEntry where
  prop : Option String
  handler : Option String
deriving Repr, DecidableEq

structure ListenerEntry where
  events : List (Option String)
  handler : Option String
deriving Repr, DecidableEq

structure DocumentMeta where
  className : Option String
  internalProperties : List (Option String)
  elements : List (Option String)
  states : List (Option String)
  propsConnect : List (Option String)
  propsContext : List (Option String)
  props : List (Option String)
  watched : List WatchedEntry
  events : List (Option String)
  lifecycle : List (Option String)
  listeners : List ListenerEntry
  methods : List (Option String)
  internalMethods : List (Option String)
deriving Repr, DecidableEq

def emptyMeta : DocumentMeta :=
  { className := none, internalProperties := [], elements := [], states := [],
    propsConnect := [], propsContext := [], props := [], watched := [],
    events := [], lifecycle := [], listeners := [], methods := [],
    internalMethods := [] }

/-! ## Extraction helpers (hasDecoratorNamed, toName, isComponentClass) -/

/-- Does a decorator's expression match
`isCallExpression(e) && isIdentifier(e.expression) && e.expression.text === name`? -/
def isCallIdentNamed (d : Decorator) (nm : String) : Bool :=
  match d.expression with
  | .callIdent callee _ => callee == nm
  | _ => false

/-- `hasDecoratorNamed`: false when the decorators field is not an array,
otherwise whether some decorator is a call of an identifier with that name. -/
def hasDecoratorNamed (decorators : Option (List Decorator)) (name : String) : Bool :=
  match decorators with
  | none => false
  | some ds => ds.any (fun d => isCallIdentNamed d name)

/-- `toName`: `member.name && isIdentifier(member.name) && member.name.text`;
the falsy outcomes are modelled by `none`. -/
def toName (member : ClassElement) : Option String :=
  match member.name with
  | some (.ident s) => some s
  | _ => none

/-- `isComponentClass`: a class declaration with an array of decorators, one
of which is a call of the identifier `Component`. -/
def isComponentClass (node : Node) : Bool :=
  match node with
  | .classDecl _ (some ds) _ _ => ds.any (fun d => isCallIdentNamed d "Component")
  | _ => false

/-- JS `list.includes(toName(member))`: comparing a string list against the
value `false` is always false. -/
def jsIncludesName (l : List String) (n : Option String) : Bool :=
  match n with
  | some s => l.contains s
  | none => false

/-! ## Extraction (gatherDocumentMeta) -/

/-- Processing of one undecorated member: builtin names are dropped, lifecycle
names go to `lifecycle`, remaining properties to `internalProperties`,
remaining methods to `internalMethods`. -/
def processUndecoratedMember (meta : DocumentMeta) (member : ClassElement) : DocumentMeta :=
  if jsIncludesName componentBuiltinMethods (toName member) then meta
  else if jsIncludesName componentLifecycleMethods (toName member) then
    { meta with lifecycle := meta.lifecycle ++ [toName member] }
  else match member.kind with
    | .propertyDecl =>
      { meta with internalProperties := meta.internalProperties ++ [toName member] }
    | .methodDecl =>
      { meta with internalMethods := meta.internalMethods ++ [toName member] }
    | .otherMember => meta

/-- `isStringLiteral(expression.arguments[0]) && arguments[0].text`:
accessing `arguments[0]` of an empty argument list yields `undefined`, and
`isStringLiteral(undefined)` throws; a non-string first argument yields the
value `false`, modelled as `none`. -/
def stringLiteralArg0 (args : List Expr) : Except Unit (Option String) :=
  match args with
  | [] => .error ()
  | a :: _ =>
    match a with
    | .strLit s => .ok (some s)
    | _ => .ok none

def stepElement (meta : DocumentMeta) (member : ClassElement) : DocumentMeta :=
  if hasDecoratorNamed member.decorators "Element" then
    { meta with elements := meta.elements ++ [toName member] }
  else meta

def stepState (meta : DocumentMeta) (member : ClassElement) : DocumentMeta :=
  if hasDecoratorNamed member.decorators "State" then
    { meta with states := meta.states ++ [toName member] }
  else meta

/-- The `Watch` branch: locate the `Watch` decorator, extract the string
literal first argument as the watched prop (a JS falsy value when absent),
and push a watched entry. -/
def stepWatch (meta : DocumentMeta) (member : ClassElement) : Except Unit DocumentMeta :=
  if hasDecoratorNamed member.decorators "Watch" then
    match (member.decorators.getD []).find? (fun d => isCallIdentNamed d "Watch") with
    | some d =>
      match d.expression with
      | .callIdent _ args =>
        match stringLiteralArg0 args with
        | .error e => .error e
        | .ok p => .ok { meta with watched := meta.watched ++ [⟨p, toName member⟩] }
      | _ => .ok { meta with watched := meta.watched ++ [⟨none, toName member⟩] }
    | none => .error ()
  else .ok meta

/-- The mapped body `isCallExpression(d.expression) && isStringLiteral(...) && text`. -/
def listenEventArg (d : Decorator) : Except Unit (Option String) :=
  match d.expression with
  | .callIdent _ args => stringLiteralArg0 args
  | _ => .ok (none : Option String)

/-- The `Listen` branch: collect all `Listen` decorators, map each to its
string literal first argument, and push one listener entry. -/
def stepListen (meta : DocumentMeta) (member : ClassElement) : Except Unit DocumentMeta :=
  if hasDecoratorNamed member.decorators "Listen" then
    match ((member.decorators.getD []).filter
        (fun d => isCallIdentNamed d "Listen")).mapM listenEventArg with
    | .error e => .error e
    | .ok evs => .ok { meta with listeners := meta.listeners ++ [⟨evs, toName member⟩] }
  else .ok meta

def stepEvent (meta : DocumentMeta) (member : ClassElement) : DocumentMeta :=
  if hasDecoratorNamed member.decorators "Event" then
    { meta with events := meta.events ++ [toName member] }
  else meta

def stepMethod (meta : DocumentMeta) (member : ClassElement) : DocumentMeta :=
  if hasDecoratorNamed member.decorators "Method" then
    { meta with methods := meta.methods ++ [toName member] }
  else meta

def stepProp (meta : DocumentMeta) (member : ClassElement) : DocumentMeta :=
  if hasDecoratorNamed member.decorators "Prop" then
    { meta with props := meta.props ++ [toName member] }
  else meta

/-- Processing of one decorated member: each role annotation is tested
independently (not else-if), in source order
Element, State, Watch, Listen, Event, Method, Prop. -/
def processDecoratedMember (meta : DocumentMeta) (member : ClassElement) : Except Unit DocumentMeta :=
  match stepWatch (stepState (stepElement meta member) member) member with
  | .error e => .error e
  | .ok m1 =>
    match stepListen m1 member with
    | .error e => .error e
    | .ok m2 => .ok (stepProp (stepMethod (stepEvent m2 member) member) member)

/-- Processing of one component class body: record the class name
(`isIdentifier(node.name)` throws on an absent name), then partition the
members and process the undecorated ones followed by the decorated ones. -/
def gatherClassMeta (meta : DocumentMeta) (name : Option NameExpr)
    (members : List ClassElement) : Except Unit DocumentMeta :=
  match name with
  | none => .error ()
  | some nm =>
    let className : Option String := match nm with
      | .ident s => some s
      | .otherName => none
    let meta := { meta with className := className }
    let undecorated := members.filter (fun m => m.decorators.isNone)
    let decorated := members.filter (fun m => m.decorators.isSome)
    let meta := undecorated.foldl processUndecoratedMember meta
    decorated.foldlM processDecoratedMember meta

mutual

/-- The recursive `visit` of `gatherDocumentMeta`: a component class has its
members processed, then traversal continues into every child. -/
def visit (meta : DocumentMeta) : Node → Except Unit DocumentMeta
  | .classDecl name decs members children =>
    if isComponentClass (.classDecl name decs members children) then
      match gatherClassMeta meta name members with
      | .error e => .error e
      | .ok meta2 => visitList meta2 children
    else visitList meta children
  | .other children => visitList meta children

def visitList (meta : DocumentMeta) : List Node → Except Unit DocumentMeta
  | [] => .ok meta
  | n :: ns =>
    match visit meta n with
    | .error e => .error e
    | .ok meta2 => visitList meta2 ns

end

/-- `gatherDocumentMeta`: build the metadata model of a source file. -/
def gatherDocumentMeta (sourceFile : Node) : Except Unit DocumentMeta :=
  visit emptyMeta sourceFile

/-! ## Category ranking (getSortText) -/

def sortCategories : List String :=
  ["own property", "element", "state", "prop:connect", "prop:context", "prop",
   "watch", "event", "lifecycle", "listen", "method", "local method"]

/-- `'abcdefghijklmnopqrstuvwxyz'.split('')`. -/
def lettersList : List String :=
  "abcdefghijklmnopqrstuvwxyz".toList.map (fun c => String.mk [c])

/-- `getSortText`: one letter per canonical category ('z' for an unrecognized
one), a second letter for lifecycle members by canonical phase, then
`-` and the member name. -/
def getSortText (category : String) (name : String) : String :=
  let i := jsIndexOf sortCategories category
  let pre := if i > -1 then jsStrListGet lettersList i else "z"
  let pre2 := if category == "lifecycle" then
      pre ++ jsStrListGet lettersList (jsIndexOf componentLifecycleMethods name)
    else pre
  pre2 ++ "-" ++ name

/-! ## Category lookup (getCategory) -/

inductive CatItem where
  | nameItem (name : String)
  | watchItem (w : WatchedEntry)
  | listenItem (l : ListenerEntry)
deriving Repr, DecidableEq

/-- `getCategory`: test the buckets in canonical order and return the first
match; fall through to `undefined` (`none`) when no bucket contains the name.
The `find?` fallbacks inside the watch/listen branches are unreachable since
they are guarded by the corresponding `any`. -/
def getCategory (meta : DocumentMeta) (name : String) : Option (CatItem × String) :=
  if meta.internalProperties.contains (some name) then some (.nameItem name, "own property")
  else if meta.elements.contains (some name) then some (.nameItem name, "element")
  else if meta.states.contains (some name) then some (.nameItem name, "state")
  else if meta.propsConnect.contains (some name) then some (.nameItem name, "prop:connect")
  else if meta.propsContext.contains (some name) then some (.nameItem name, "prop:context")
  else if meta.props.contains (some name) then some (.nameItem name, "prop")
  else if meta.watched.any (fun w => w.handler == some name) then
    some (.watchItem ((meta.watched.find? (fun w => w.handler == some name)).getD ⟨none, none⟩), "watch")
  else if meta.events.contains (some name) then some (.nameItem name, "event")
  else if meta.lifecycle.contains (some name) then some (.nameItem name, "lifecycle")
  else if meta.listeners.any (fun l => l.handler == some name) then
    some (.listenItem ((meta.listeners.find? (fun l => l.handler == some name)).getD ⟨[], none⟩), "listen")
  else if meta.methods.contains (some name) then some (.nameItem name, "method")
  else if meta.internalMethods.contains (some name) then some (.nameItem name, "local method")
  else none

/-! ## Type predicate utilities (ts-util/type.ts) -/

/-- A TypeScript type as far as `checkType` observes it: whether the `Union`
flag is set and, for a union, its member types. -/
inductive TSType where
  | node (isUnion : Bool) (types : List TSType)

/-- Whether the `Union` flag is set. -/
def TSType.unionFlag : TSType → Bool
  | .node u _ => u

mutual

/-- `checkType`: for a union, return true if the predicate holds of some
member (recursively); otherwise (and as a fallback) apply the predicate to
the type itself. -/
def checkType (t : TSType) (check : TSType → Bool) : Bool :=
  match t with
  | .node u ts =>
    if u then
      if checkTypeAny ts check then true else check (.node u ts)
    else check (.node u ts)

/-- The `union.types.some(type => checkType(type, check))` part. -/
def checkTypeAny (ts : List TSType) (check : TSType → Bool) : Bool :=
  match ts with
  | [] => false
  | t :: rest => checkType t check || checkTypeAny rest check

end

mutual

/-- All types the predicate can be applied to by `checkType` starting from
`t`: the type itself and, through union nodes, all their members. -/
def unionReach : TSType → List TSType
  | .node u ts => .node u ts :: (if u then unionReachList ts else [])

def unionReachList : List TSType → List TSType
  | [] => []
  | t :: rest => unionReach t ++ unionReachList rest

end

mutual

/-- Modelled from the spec: the flattened member types of a union (the leaf
types reached by recursively expanding union members); a non-union type
flattens to itself. -/
def flattenUnion : TSType → List TSType
  | .node true ts => flattenUnionList ts
  | .node false ts => [.node false ts]

def flattenUnionList : List TSType → List TSType
  | [] => []
  | t :: rest => flattenUnion t ++ flattenUnionList rest

end

/-! ## Display parts and completion entry details -/

/-- A symbol display part; `text` is `none` when a non-string JS value (such
as `false`) flows into the text field. -/
structure SymbolDisplayPart where
  kind : String
  text : Option String
deriving Repr, DecidableEq

/-- `buildStencilDecoratorDisplayParts(kind, arg)`: the argument part is
dropped by the `filter(x => x)` when the argument is falsy (absent or the
empty string). -/
def buildStencilDecoratorDisplayParts (kind : String) (arg : Option String) : List SymbolDisplayPart :=
  let argPart : Option SymbolDisplayPart :=
    match arg with
    | some s => if s == "" then none else some ⟨"text", some s⟩
    | none => none
  [some ⟨"punctuation", some "@"⟩, some ⟨"text", some kind⟩,
   some ⟨"punctuation", some "("⟩, argPart,
   some ⟨"punctuation", some ")"⟩].filterMap id

def buildStencilDisplayParts (kind : String) : List SymbolDisplayPart :=
  [⟨"text", some kind⟩]

/-- JS `Array.prototype.splice(start, deleteCount, ...items)` restricted to
nonnegative arguments, returning the mutated array. -/
def jsSplice (l : List SymbolDisplayPart) (start deleteCount : Nat)
    (items : List SymbolDisplayPart) : List SymbolDisplayPart :=
  let s := min start l.length
  l.take s ++ items ++ l.drop (s + deleteCount)

structure CompletionEntryDetails where
  kind : String
  displayParts : List SymbolDisplayPart
  documentation : List SymbolDisplayPart
deriving Repr, DecidableEq

/-- The watched prop read `item.prop`; reading `.prop` of a non-watch item
yields `undefined`, modelled as `none`. -/
def catItemProp : CatItem → Option String
  | .watchItem w => w.prop
  | _ => none

/-- The details transformation of `proxy.getCompletionEntryDetails` applied
to the host's raw result: only kinds `property` and `method` are decorated;
the category lookup result is destructured unguarded, so an unmatched name
(an `undefined` lookup result) throws. -/
def transformDetails (meta : DocumentMeta) (name : String)
    (prior : CompletionEntryDetails) : Except Unit CompletionEntryDetails :=
  if prior.kind == "property" || prior.kind == "method" then
    match getCategory meta name with
    | none => .error ()
    | some (item, category) =>
      if category == "watch" then
        let pushed : List SymbolDisplayPart :=
          [⟨"punctuation", some "\n"⟩, ⟨"punctuation", some "("⟩,
           ⟨"text", some "watched"⟩, ⟨"punctuation", some ")"⟩,
           ⟨"space", some " "⟩, ⟨"keyword", catItemProp item⟩]
        let parts := jsSplice prior.displayParts 1 1 (buildStencilDisplayParts "watch") ++ pushed
        .ok { prior with displayParts := parts }
      else if category == "listen" then
        match item with
        | .listenItem l =>
          let eventDisplayParts := l.events.foldl (fun acc event =>
            acc ++ buildStencilDecoratorDisplayParts "Watch" event ++
            [⟨"punctuation", some "\n"⟩]) []
          let parts := eventDisplayParts ++ prior.displayParts.drop 4
          .ok { prior with displayParts := parts }
        | _ => .error ()
      else
        let documentation := if category == "lifecycle" then
            prior.documentation ++
            [⟨"markdown", some ("\n\n**Component Lifecycle Method**" ++ lifecycleDocFor name)⟩]
          else prior.documentation
        let parts := jsSplice prior.displayParts 1 1 (buildStencilDisplayParts category)
        .ok { prior with displayParts := parts, documentation := documentation }
  else .ok prior

/-! ## The detail cache (proxy.getCompletionEntryDetails) -/

/-- The four module-level cache variables; `none` models `undefined` before
first assignment. -/
structure DetailCacheState where
  fileName : Option String
  position : Option Int
  names : Option (List String)
  entries : List (String × CompletionEntryDetails)
deriving Repr, DecidableEq

def initialDetailCache : DetailCacheState :=
  { fileName := none, position := none, names := none, entries := [] }

/-- JS `Map.prototype.set`. -/
def mapSet (entries : List (String × CompletionEntryDetails)) (name : String)
    (v : CompletionEntryDetails) : List (String × CompletionEntryDetails) :=
  if entries.any (fun p => p.1 == name) then
    entries.map (fun p => if p.1 == name then (name, v) else p)
  else entries ++ [(name, v)]

/-- JS `Map.prototype.get` (possibly `undefined`). -/
def mapGet (entries : List (String × CompletionEntryDetails)) (name : String) :
    Option CompletionEntryDetails :=
  (entries.find? (fun p => p.1 == name)).map (fun p => p.2)

/-- The outcome of one `getCompletionEntryDetails` call: the value returned
to the collaborator, the updated cache state, and whether the underlying
collaborator lookup was invoked. -/
structure DetailCallResult where
  result : Option CompletionEntryDetails
  state : DetailCacheState
  hostCalled : Bool
deriving Repr, DecidableEq

/-- The miss path of the detail proxy: gather, consult the collaborator,
transform, then cache — clearing the map first when `(file, position)` is a
new pair. -/
def detailMissPath (st : DetailCacheState) (tree : Node)
    (hostResult : CompletionEntryDetails) (fileName : String) (position : Int)
    (name : String) : Except Unit DetailCallResult :=
  match gatherDocumentMeta tree with
  | .error e => .error e
  | .ok meta =>
    match transformDetails meta name hostResult with
    | .error e => .error e
    | .ok res =>
      if st.fileName == some fileName && st.position == some position then
        match st.names with
        | none => .error ()
        | some ns =>
          let st2 := { st with names := some (ns ++ [name]), entries := mapSet st.entries name res }
          .ok ⟨some res, st2, true⟩
      else
        .ok ⟨some res,
          { fileName := some fileName, position := some position,
            names := some [name], entries := mapSet [] name res },
          true⟩

/-- `proxy.getCompletionEntryDetails`: a hit on `(file, position, name)`
returns the cached value without consulting the collaborator; a miss gathers
the metadata, asks the collaborator (`hostResult`), transforms the result,
and caches it. -/
def getCompletionEntryDetailsProxy (st : DetailCacheState) (tree : Node)
    (hostResult : CompletionEntryDetails) (fileName : String) (position : Int)
    (name : String) : Except Unit DetailCallResult :=
  if st.fileName == some fileName && st.position == some position then
    match st.names with
    | none => .error ()
    | some ns =>
      if ns.contains name then .ok ⟨mapGet st.entries name, st, false⟩
      else detailMissPath st tree hostResult fileName position name
  else detailMissPath st tree hostResult fileName position name

/-! ## Find references (proxy.findReferences) -/

/-- The node the cursor is on, as far as `findReferences` inspects it. -/
inductive CursorNode where
  | identNode (text : String)
  | propertyDeclNamedIdent (text : String)
  | otherNode
deriving Repr, DecidableEq

/-- The `text` variable: set for an identifier or a property declaration with
an identifier name, `undefined` otherwise. -/
def cursorText : CursorNode → Option String
  | .identNode t => some t
  | .propertyDeclNamedIdent t => some t
  | .otherNode => none

structure ReferenceEntry where
  fileName : String
  start : Int
  length : Nat
  isDefinition : Bool
  isWriteAccess : Bool
  isInString : Bool
deriving Repr, DecidableEq

structure ReferencedSymbol where
  definition : String
  references : List ReferenceEntry
deriving Repr, DecidableEq

/-- A source file: its declaration tree and its raw text. -/
structure SourceFile where
  tree : Node
  text : String

/-- `proxy.findReferences`: when the name under the cursor is the observed
prop of some watched entry, look for the name wrapped in double quotes first,
falling back to single quotes, and append one extra string-literal reference;
`prior[0].definition` throws when the host's list is empty. -/
def proxyFindReferences (fileName : String) (sf : SourceFile) (cursor : CursorNode)
    (prior : List ReferencedSymbol) : Except Unit (List ReferencedSymbol) :=
  match gatherDocumentMeta sf.tree with
  | .error e => .error e
  | .ok meta =>
  match cursorText cursor with
  | some t =>
    if meta.watched.any (fun w => w.prop == some t) then
      let found := jsStrIndexOf sf.text ("\"" ++ t ++ "\"")
      let found := if !(found > -1) then jsStrIndexOf sf.text ("'" ++ t ++ "'") else found
      if found > -1 then
        match prior with
        | [] => .error ()
        | p0 :: _ =>
          .ok (prior ++ [⟨p0.definition,
            [⟨fileName, found + 1, t.length, false, true, true⟩]⟩])
      else .ok prior
    else .ok prior
  | none => .ok prior

/-- Modelled from the spec: the first occurrence of the name wrapped in
either quoting style in the raw source text. -/
def specFirstQuotedIndex (text name : String) : Option Int :=
  let d := jsStrIndexOf text ("\"" ++ name ++ "\"")
  let s := jsStrIndexOf text ("'" ++ name ++ "'")
  if d ≥ 0 && s ≥ 0 then some (min d s)
  else if d ≥ 0 then some d
  else if s ≥ 0 then some s
  else none

/-! ## Derived notions used in the claims -/

/-- The seven recognized role-annotation names, in the order the extractor
tests them. -/
def recognizedRoles : List String :=
  ["Element", "State", "Watch", "Listen", "Event", "Method", "Prop"]

def undecoratedOf (members : List ClassElement) : List ClassElement :=
  members.filter (fun m => m.decorators.isNone)

def decoratedOf (members : List ClassElement) : List ClassElement :=
  members.filter (fun m => m.decorators.isSome)

/-- Condition for an undecorated member to land in `lifecycle`. -/
def uCondLife (mb : ClassElement) : Bool :=
  !(jsIncludesName componentBuiltinMethods (toName mb)) &&
    jsIncludesName componentLifecycleMethods (toName mb)

/-- Condition for an undecorated member to land in `internalProperties`. -/
def uCondIntProp (mb : ClassElement) : Bool :=
  !(jsIncludesName componentBuiltinMethods (toName mb)) &&
    !(jsIncludesName componentLifecycleMethods (toName mb)) &&
    (mb.kind == .propertyDecl)

/-- Condition for an undecorated member to land in `internalMethods`. -/
def uCondIntMeth (mb : ClassElement) : Bool :=
  !(jsIncludesName componentBuiltinMethods (toName mb)) &&
    !(jsIncludesName componentLifecycleMethods (toName mb)) &&
    (mb.kind == .methodDecl)

/-- The names contributed to a role bucket by the members of a list carrying
the role annotation `r`. -/
def dContrib (r : String) (l : List ClassElement) : List (Option String) :=
  (l.filter (fun mb => hasDecoratorNamed mb.decorators r)).map toName

/-- The nine member-name buckets of the invariant claim. -/
def bucketsOf (m : DocumentMeta) : List (List (Option String)) :=
  [m.internalProperties, m.internalMethods, m.elements, m.states, m.props,
   m.propsConnect, m.propsContext, m.methods, m.lifecycle]

/-- In how many of the nine buckets does the member name `s` appear? -/
def bucketCount (m : DocumentMeta) (s : String) : Nat :=
  (bucketsOf m).countP (fun b => b.contains (some s))

def watchHandlers (m : DocumentMeta) : List (Option String) :=
  m.watched.map WatchedEntry.handler

def listenHandlers (m : DocumentMeta) : List (Option String) :=
  m.listeners.map ListenerEntry.handler

/-- Modelled from the spec: the canonical category order (§4.4) as a rank.
A recognized category ranks by its position in the canonical list; an
unrecognized category ranks last (`List.indexOf` yields the length, 12). -/
def categoryRank (c : String) : Nat :=
  sortCategories.indexOf c

/-- The letter assigned to a category rank; rank 12 (unrecognized) gets 'z'. -/
def letterOfRank : Nat → Char
  | 0 => 'a' | 1 => 'b' | 2 => 'c' | 3 => 'd' | 4 => 'e' | 5 => 'f'
  | 6 => 'g' | 7 => 'h' | 8 => 'i' | 9 => 'j' | 10 => 'k' | 11 => 'l'
  | _ => 'z'

/-- The first character of the sort key emitted for a category. -/
def headLetterChar (c : String) : Char :=
  letterOfRank (categoryRank c)

/-- Modelled from the spec: a member carries the prop:connect role when its
`Prop` annotation is given a `connect` option. -/
def specPropConnectRole (mb : ClassElement) : Bool :=
  (mb.decorators.getD []).any (fun d =>
    match d.expression with
    | .callIdent callee args =>
      callee == "Prop" && args.any (fun a =>
        match a with
        | .objLit keys => keys.contains "connect"
        | _ => false)
    | _ => false)

/-! ## Concrete inputs for counterexamples and witnesses -/

def componentDec : Decorator := ⟨.callIdent "Component" [.objLit ["tag"]]⟩

/-- A component class declaration node with the given name and members. -/
def mkComponentClass (cn : String) (members : List ClassElement) : Node :=
  .classDecl (some (.ident cn)) (some [componentDec]) members []

def c1DoubleMember : ClassElement :=
  ⟨some (.ident "x"), some [⟨.callIdent "Element" []⟩, ⟨.callIdent "State" []⟩], .propertyDecl⟩

def c1Tree : Node := mkComponentClass "MyComponent" [c1DoubleMember]

def c1wMember : ClassElement :=
  ⟨some (.ident "el"), some [⟨.callIdent "Element" []⟩], .propertyDecl⟩

def c1wTree : Node := mkComponentClass "MyComponent" [c1wMember]

def c2Member : ClassElement :=
  ⟨some (.ident "conn"), some [⟨.callIdent "Prop" [.objLit ["connect"]]⟩], .propertyDecl⟩

def c2Tree : Node := mkComponentClass "MyComponent" [c2Member]

def stateMemberNamed (n : String) : ClassElement :=
  ⟨some (.ident n), some [⟨.callIdent "State" []⟩], .propertyDecl⟩

/-- A tree with two component classes separated by an unrelated node. -/
def twoComponentTree (n1 n2 : String) : Node :=
  .other [mkComponentClass "A" [stateMemberNamed n1], .other [],
          mkComponentClass "B" [stateMemberNamed n2]]

def watchMemberWithArgs (h : String) (args : List Expr) : ClassElement :=
  ⟨some (.ident h), some [⟨.callIdent "Watch" args⟩], .methodDecl⟩

def listenMemberWithArgs (h : String) (args : List Expr) : ClassElement :=
  ⟨some (.ident h), some [⟨.callIdent "Listen" args⟩], .methodDecl⟩

def c4NonStringTree : Node := mkComponentClass "C" [watchMemberWithArgs "onX" [.numLit 42]]

def c4ListenNonStringTree : Node := mkComponentClass "C" [listenMemberWithArgs "onZ" [.numLit 7]]

def c4NoArgTree : Node := mkComponentClass "C" [watchMemberWithArgs "onY" []]

def c6Tree : Node := mkComponentClass "Empty" []

def c6Host : CompletionEntryDetails := ⟨"property", [⟨"text", some "x"⟩], []⟩

def c7Type : TSType := .node true [.node false []]

def c7Pred (t : TSType) : Bool := t.unionFlag

def c8WatchTree : Node :=
  mkComponentClass "C"
    [⟨some (.ident "onNameChange"), some [⟨.callIdent "Watch" [.strLit "x"]⟩], .methodDecl⟩]

def c8Source : SourceFile := ⟨c8WatchTree, "'x' \"x\""⟩

def c8Prior : List ReferencedSymbol := [⟨"decl", []⟩]

def c9Host : CompletionEntryDetails := ⟨"warning", [], []⟩

def c10Member : ClassElement :=
  ⟨some (.ident "y"), some [⟨.callIdent "Foo" []⟩], .propertyDecl⟩

/-- The model extracted from `c1wTree`. -/
def c1wMeta : DocumentMeta :=
  { emptyMeta with className := some "MyComponent", elements := [some "el"] }

/-- The model extracted from `c2Tree`. -/
def c2wMeta : DocumentMeta :=
  { emptyMeta with className := some "MyComponent", props := [some "conn"] }

/-- The cache state after a first detail request for `("a.ts", 7, "n")`. -/
def c9FirstState : DetailCacheState :=
  { fileName := some "a.ts", position := some 7, names := some ["n"],
    entries := [("n", c9Host)] }

def c10TreeWith : Node :=
  .classDecl (some (.ident "C")) (some [componentDec]) [stateMemberNamed "a", c10Member] []

def c10TreeWithout : Node :=
  .classDecl (some (.ident "C")) (some [componentDec]) [stateMemberNamed "a"] []

/-! ## Helper lemmas -/

mutual

theorem checkType_eq_reach : ∀ (t : TSType) (p : TSType → Bool),
    checkType t p = (unionReach t).any p
  | .node u ts, p => by
    have hl := checkTypeAny_eq_reach ts p
    cases u with
    | false => simp [checkType, unionReach]
    | true =>
      simp only [checkType, unionReach, if_true, List.any_cons, hl]
      cases h : (unionReachList ts).any p <;> simp [h]

theorem checkTypeAny_eq_reach : ∀ (ts : List TSType) (p : TSType → Bool),
    checkTypeAny ts p = (unionReachList ts).any p
  | [], _ => by simp [checkTypeAny, unionReachList]
  | t :: ts, p => by
    have h1 := checkType_eq_reach t p
    have h2 := checkTypeAny_eq_reach ts p
    simp [checkTypeAny, unionReachList, h1, h2, List.any_append]

end

theorem lex_append_left (p : List Char) {a b : List Char}
    (h : List.Lex (· < ·) a b) : List.Lex (· < ·) (p ++ a) (p ++ b) := by
  induction p with
  | nil => exact h
  | cons c p ih => exact List.Lex.cons ih

theorem jsIndexOfAux_not_mem (x : String) (l : List String) (k : Nat) (h : x ∉ l) :
    jsIndexOfAux x l k = -1 := by
  induction l generalizing k with
  | nil => rfl
  | cons y ys ih =>
    simp only [List.mem_cons, not_or] at h
    simp only [jsIndexOfAux]
    rw [if_neg, ih _ h.2]
    simp [beq_iff_eq]
    exact fun hy => h.1 hy.symm

theorem getSortText_head (c n : String) :
    ∃ rest, (getSortText c n).data = headLetterChar c :: rest := by
  by_cases hc : c ∈ sortCategories
  · simp only [sortCategories, List.mem_cons, List.not_mem_nil, or_false] at hc
    rcases hc with h|h|h|h|h|h|h|h|h|h|h|h <;> subst h
    case _ => exact ⟨'-' :: n.data, String.data_append _ n⟩
    case _ => exact ⟨'-' :: n.data, String.data_append _ n⟩
    case _ => exact ⟨'-' :: n.data, String.data_append _ n⟩
    case _ => exact ⟨'-' :: n.data, String.data_append _ n⟩
    case _ => exact ⟨'-' :: n.data, String.data_append _ n⟩
    case _ => exact ⟨'-' :: n.data, String.data_append _ n⟩
    case _ => exact ⟨'-' :: n.data, String.data_append _ n⟩
    case _ => exact ⟨'-' :: n.data, String.data_append _ n⟩
    case _ =>
      refine ⟨(jsStrListGet lettersList (jsIndexOf componentLifecycleMethods n)).data ++ ('-' :: n.data), ?_⟩
      rw [show getSortText "lifecycle" n =
        (("i" ++ jsStrListGet lettersList (jsIndexOf componentLifecycleMethods n)) ++ "-") ++ n from rfl]
      rw [String.data_append, String.data_append, String.data_append]
      simp only [headLetterChar, categoryRank]
      rw [show List.indexOf "lifecycle" sortCategories = 8 from by decide]
      simp [letterOfRank]
    case _ => exact ⟨'-' :: n.data, String.data_append _ n⟩
    case _ => exact ⟨'-' :: n.data, String.data_append _ n⟩
    case _ => exact ⟨'-' :: n.data, String.data_append _ n⟩
  · have hidx : jsIndexOf sortCategories c = -1 := jsIndexOfAux_not_mem c _ 0 hc
    have hlife : (c == "lifecycle") = false := by
      simp only [sortCategories, List.mem_cons, List.not_mem_nil, or_false, not_or] at hc
      simp [beq_iff_eq]
      tauto
    have hz : headLetterChar c = 'z' := by
      have h12 : categoryRank c = 12 := by
        unfold categoryRank
        rw [List.indexOf_eq_length.mpr hc]
        decide
      unfold headLetterChar
      rw [h12]
      rfl
    rw [hz]
    refine ⟨'-' :: n.data, ?_⟩
    rw [show getSortText c n =
      ((if jsIndexOf sortCategories c > -1 then jsStrListGet lettersList (jsIndexOf sortCategories c) else "z") ++ "-") ++ n
      from by simp [getSortText, hlife]]
    rw [hidx]
    norm_num

theorem categoryRank_le (c : String) : categoryRank c ≤ 12 := by
  have := List.indexOf_le_length (a := c) (l := sortCategories)
  simpa [categoryRank] using this

theorem letterOfRank_mono {r1 r2 : Nat} (h : r1 < r2) (h2 : r2 ≤ 12) :
    letterOfRank r1 < letterOfRank r2 := by
  interval_cases r2 <;> interval_cases r1 <;> decide

theorem headLetterChar_mono {c1 c2 : String} (h : categoryRank c1 < categoryRank c2) :
    headLetterChar c1 < headLetterChar c2 :=
  letterOfRank_mono h (categoryRank_le c2)

theorem getSortText_rank_lt (c1 c2 n1 n2 : String) (h : categoryRank c1 < categoryRank c2) :
    getSortText c1 n1 < getSortText c2 n2 := by
  obtain ⟨r1, e1⟩ := getSortText_head c1 n1
  obtain ⟨r2, e2⟩ := getSortText_head c2 n2
  rw [String.lt_iff_toList_lt]
  show List.Lex _ (getSortText c1 n1).data (getSortText c2 n2).data
  rw [e1, e2]
  exact List.Lex.rel (headLetterChar_mono h)

theorem getSortText_name_lt (c n1 n2 : String) (hc : c ≠ "lifecycle") (h : n1 < n2) :
    getSortText c n1 < getSortText c n2 := by
  have hb : (c == "lifecycle") = false := by
    simp [beq_iff_eq]
    exact hc
  have e : ∀ n : String, getSortText c n =
      ((if jsIndexOf sortCategories c > -1 then jsStrListGet lettersList (jsIndexOf sortCategories c) else "z") ++ "-") ++ n := by
    intro n
    simp [getSortText, hb]
  rw [String.lt_iff_toList_lt]
  show List.Lex _ (getSortText c n1).data (getSortText c n2).data
  rw [e n1, e n2, String.data_append, String.data_append]
  apply lex_append_left
  exact String.lt_iff_toList_lt.mp h

theorem processUndecoratedMember_eq (meta : DocumentMeta) (mb : ClassElement) :
    processUndecoratedMember meta mb =
      { meta with
        lifecycle := meta.lifecycle ++ (if uCondLife mb then [toName mb] else []),
        internalProperties :=
          meta.internalProperties ++ (if uCondIntProp mb then [toName mb] else []),
        internalMethods :=
          meta.internalMethods ++ (if uCondIntMeth mb then [toName mb] else []) } := by
  cases hbi : jsIncludesName componentBuiltinMethods (toName mb) <;>
    cases hlf : jsIncludesName componentLifecycleMethods (toName mb) <;>
    cases hk : mb.kind <;>
    simp [processUndecoratedMember, uCondLife, uCondIntProp, uCondIntMeth, hbi, hlf, hk]

theorem foldl_processUndecorated (l : List ClassElement) :
    ∀ meta : DocumentMeta, l.foldl processUndecoratedMember meta =
      { meta with
        lifecycle := meta.lifecycle ++ (l.filter uCondLife).map toName,
        internalProperties :=
          meta.internalProperties ++ (l.filter uCondIntProp).map toName,
        internalMethods :=
          meta.internalMethods ++ (l.filter uCondIntMeth).map toName } := by
  induction l with
  | nil => intro meta; simp
  | cons mb l ih =>
    intro meta
    rw [List.foldl_cons, processUndecoratedMember_eq, ih]
    cases h1 : uCondLife mb <;> cases h2 : uCondIntProp mb <;> cases h3 : uCondIntMeth mb <;>
      simp [List.filter_cons, h1, h2, h3]

theorem stepElement_eq (meta : DocumentMeta) (mb : ClassElement) :
    stepElement meta mb = { meta with elements := meta.elements ++
      (if hasDecoratorNamed mb.decorators "Element" then [toName mb] else []) } := by
  unfold stepElement
  split_ifs <;> simp

theorem stepState_eq (meta : DocumentMeta) (mb : ClassElement) :
    stepState meta mb = { meta with states := meta.states ++
      (if hasDecoratorNamed mb.decorators "State" then [toName mb] else []) } := by
  unfold stepState
  split_ifs <;> simp

theorem stepEvent_eq (meta : DocumentMeta) (mb : ClassElement) :
    stepEvent meta mb = { meta with events := meta.events ++
      (if hasDecoratorNamed mb.decorators "Event" then [toName mb] else []) } := by
  unfold stepEvent
  split_ifs <;> simp

theorem stepMethod_eq (meta : DocumentMeta) (mb : ClassElement) :
    stepMethod meta mb = { meta with methods := meta.methods ++
      (if hasDecoratorNamed mb.decorators "Method" then [toName mb] else []) } := by
  unfold stepMethod
  split_ifs <;> simp

theorem stepProp_eq (meta : DocumentMeta) (mb : ClassElement) :
    stepProp meta mb = { meta with props := meta.props ++
      (if hasDecoratorNamed mb.decorators "Prop" then [toName mb] else []) } := by
  unfold stepProp
  split_ifs <;> simp

theorem stepWatch_ok (meta m : DocumentMeta) (mb : ClassElement)
    (h : stepWatch meta mb = .ok m) :
    ∃ ws : List WatchedEntry, m = { meta with watched := meta.watched ++ ws } ∧
      ws.map WatchedEntry.handler =
        (if hasDecoratorNamed mb.decorators "Watch" then [toName mb] else []) := by
  unfold stepWatch at h
  split at h
  case isTrue hw =>
    rw [if_pos hw]
    split at h
    case h_1 d hd =>
      split at h
      case h_1 callee args he =>
        cases hs : stringLiteralArg0 args with
        | error e => rw [hs] at h; exact absurd h (by simp)
        | ok p =>
          rw [hs] at h
          simp only [Except.ok.injEq] at h
          exact ⟨[⟨p, toName mb⟩], h.symm, by simp⟩
      case h_2 he =>
        simp only [Except.ok.injEq] at h
        exact ⟨[⟨none, toName mb⟩], h.symm, by simp⟩
    case h_2 hd => exact absurd h (by simp)
  case isFalse hw =>
    rw [if_neg hw]
    simp only [Except.ok.injEq] at h
    exact ⟨[], by simp [h.symm], by simp⟩

theorem stepListen_ok (meta m : DocumentMeta) (mb : ClassElement)
    (h : stepListen meta mb = .ok m) :
    ∃ ls : List ListenerEntry, m = { meta with listeners := meta.listeners ++ ls } ∧
      ls.map ListenerEntry.handler =
        (if hasDecoratorNamed mb.decorators "Listen" then [toName mb] else []) := by
  unfold stepListen at h
  split at h
  case isTrue hw =>
    rw [if_pos hw]
    split at h
    case h_1 e he => exact absurd h (by simp)
    case h_2 evs he =>
      simp only [Except.ok.injEq] at h
      exact ⟨[⟨evs, toName mb⟩], h.symm, by simp⟩
  case isFalse hw =>
    rw [if_neg hw]
    simp only [Except.ok.injEq] at h
    exact ⟨[], by simp [h.symm], by simp⟩

theorem processDecoratedMember_ok (meta m : DocumentMeta) (mb : ClassElement)
    (h : processDecoratedMember meta mb = .ok m) :
    m.className = meta.className ∧
    m.internalProperties = meta.internalProperties ∧
    m.internalMethods = meta.internalMethods ∧
    m.lifecycle = meta.lifecycle ∧
    m.propsConnect = meta.propsConnect ∧
    m.propsContext = meta.propsContext ∧
    m.elements = meta.elements ++ (if hasDecoratorNamed mb.decorators "Element" then [toName mb] else []) ∧
    m.states = meta.states ++ (if hasDecoratorNamed mb.decorators "State" then [toName mb] else []) ∧
    m.events = meta.events ++ (if hasDecoratorNamed mb.decorators "Event" then [toName mb] else []) ∧
    m.methods = meta.methods ++ (if hasDecoratorNamed mb.decorators "Method" then [toName mb] else []) ∧
    m.props = meta.props ++ (if hasDecoratorNamed mb.decorators "Prop" then [toName mb] else []) ∧
    m.watched.map WatchedEntry.handler = meta.watched.map WatchedEntry.handler ++
      (if hasDecoratorNamed mb.decorators "Watch" then [toName mb] else []) ∧
    m.listeners.map ListenerEntry.handler = meta.listeners.map ListenerEntry.handler ++
      (if hasDecoratorNamed mb.decorators "Listen" then [toName mb] else []) := by
  unfold processDecoratedMember at h
  split at h
  case h_1 e hw => exact absurd h (by simp)
  case h_2 m1 hw =>
    split at h
    case h_1 e hl => exact absurd h (by simp)
    case h_2 m2 hl =>
      simp only [Except.ok.injEq] at h
      obtain ⟨ws, hw1, hw2⟩ := stepWatch_ok _ _ _ hw
      obtain ⟨ls, hl1, hl2⟩ := stepListen_ok _ _ _ hl
      subst h
      simp only [stepProp_eq, stepMethod_eq, stepEvent_eq, hl1, hw1, stepState_eq,
        stepElement_eq, hw2, hl2]
      simp [hw2, hl2]

theorem except_bind_ok {α β : Type} (a : α) (f : α → Except Unit β) :
    (Except.ok a >>= f) = f a := rfl

theorem except_bind_err {α β : Type} (e : Unit) (f : α → Except Unit β) :
    ((Except.error e : Except Unit α) >>= f) = .error e := rfl

theorem dContrib_cons (r : String) (mb : ClassElement) (l : List ClassElement) :
    dContrib r (mb :: l) =
      (if hasDecoratorNamed mb.decorators r then [toName mb] else []) ++ dContrib r l := by
  unfold dContrib
  rw [List.filter_cons]
  split_ifs <;> simp

theorem foldlM_processDecorated (l : List ClassElement) :
    ∀ meta m : DocumentMeta, l.foldlM processDecoratedMember meta = .ok m →
    m.className = meta.className ∧
    m.internalProperties = meta.internalProperties ∧
    m.internalMethods = meta.internalMethods ∧
    m.lifecycle = meta.lifecycle ∧
    m.propsConnect = meta.propsConnect ∧
    m.propsContext = meta.propsContext ∧
    m.elements = meta.elements ++ dContrib "Element" l ∧
    m.states = meta.states ++ dContrib "State" l ∧
    m.events = meta.events ++ dContrib "Event" l ∧
    m.methods = meta.methods ++ dContrib "Method" l ∧
    m.props = meta.props ++ dContrib "Prop" l ∧
    m.watched.map WatchedEntry.handler =
      meta.watched.map WatchedEntry.handler ++ dContrib "Watch" l ∧
    m.listeners.map ListenerEntry.handler =
      meta.listeners.map ListenerEntry.handler ++ dContrib "Listen" l := by
  induction l with
  | nil =>
    intro meta m h
    simp only [List.foldlM_nil] at h
    cases h
    simp [dContrib]
  | cons mb l ih =>
    intro meta m h
    rw [List.foldlM_cons] at h
    cases hpd : processDecoratedMember meta mb with
    | error e =>
      rw [hpd, except_bind_err] at h
      exact absurd h (by simp)
    | ok m1 =>
      rw [hpd, except_bind_ok] at h
      obtain ⟨c1, c2, c3, c4, c5, c6, c7, c8, c9, c10, c11, c12, c13⟩ :=
        processDecoratedMember_ok _ _ _ hpd
      obtain ⟨d1, d2, d3, d4, d5, d6, d7, d8, d9, d10, d11, d12, d13⟩ := ih m1 m h
      refine ⟨d1.trans c1, d2.trans c2, d3.trans c3, d4.trans c4, d5.trans c5, d6.trans c6,
        ?_, ?_, ?_, ?_, ?_, ?_, ?_⟩
      · rw [d7, c7, dContrib_cons, List.append_assoc]
      · rw [d8, c8, dContrib_cons, List.append_assoc]
      · rw [d9, c9, dContrib_cons, List.append_assoc]
      · rw [d10, c10, dContrib_cons, List.append_assoc]
      · rw [d11, c11, dContrib_cons, List.append_assoc]
      · rw [d12, c12, dContrib_cons, List.append_assoc]
      · rw [d13, c13, dContrib_cons, List.append_assoc]

theorem gatherClassMeta_ok (meta m : DocumentMeta) (nm : NameExpr) (members : List ClassElement)
    (h : gatherClassMeta meta (some nm) members = .ok m) :
    m.internalProperties =
      meta.internalProperties ++ ((undecoratedOf members).filter uCondIntProp).map toName ∧
    m.internalMethods =
      meta.internalMethods ++ ((undecoratedOf members).filter uCondIntMeth).map toName ∧
    m.lifecycle = meta.lifecycle ++ ((undecoratedOf members).filter uCondLife).map toName ∧
    m.propsConnect = meta.propsConnect ∧
    m.propsContext = meta.propsContext ∧
    m.elements = meta.elements ++ dContrib "Element" (decoratedOf members) ∧
    m.states = meta.states ++ dContrib "State" (decoratedOf members) ∧
    m.events = meta.events ++ dContrib "Event" (decoratedOf members) ∧
    m.methods = meta.methods ++ dContrib "Method" (decoratedOf members) ∧
    m.props = meta.props ++ dContrib "Prop" (decoratedOf members) ∧
    watchHandlers m = watchHandlers meta ++ dContrib "Watch" (decoratedOf members) ∧
    listenHandlers m = listenHandlers meta ++ dContrib "Listen" (decoratedOf members) ∧
    (∀ s : String, nm = .ident s → m.className = some s) := by
  unfold gatherClassMeta at h
  dsimp only at h
  rw [foldl_processUndecorated] at h
  obtain ⟨d1, d2, d3, d4, d5, d6, d7, d8, d9, d10, d11, d12, d13⟩ :=
    foldlM_processDecorated _ _ _ h
  unfold watchHandlers listenHandlers
  unfold undecoratedOf decoratedOf
  simp only [d1, d2, d3, d4, d5, d6, d7, d8, d9, d10, d11, d12, d13]
  refine ⟨by simp, by simp, by simp, by simp, by simp, by simp, by simp, by simp, by simp,
    by simp, by simp, by simp, ?_⟩
  intro s hs
  subst hs
  simp

theorem gather_singleClass (nm : Option NameExpr) (cds : Option (List Decorator))
    (members : List ClassElement) (m : DocumentMeta)
    (hcomp : isComponentClass (Node.classDecl nm cds members []) = true)
    (h : gatherDocumentMeta (Node.classDecl nm cds members []) = .ok m) :
    gatherClassMeta emptyMeta nm members = .ok m := by
  unfold gatherDocumentMeta visit at h
  rw [if_pos hcomp] at h
  cases hg : gatherClassMeta emptyMeta nm members with
  | error e => rw [hg] at h; exact absurd h (by simp)
  | ok m2 =>
    rw [hg] at h
    simp only [visitList] at h
    cases h
    rfl

theorem gather_singleClass_buckets (nm : NameExpr) (cds : Option (List Decorator))
    (members : List ClassElement) (m : DocumentMeta)
    (hcomp : isComponentClass (Node.classDecl (some nm) cds members []) = true)
    (h : gatherDocumentMeta (Node.classDecl (some nm) cds members []) = .ok m) :
    m.internalProperties = ((undecoratedOf members).filter uCondIntProp).map toName ∧
    m.internalMethods = ((undecoratedOf members).filter uCondIntMeth).map toName ∧
    m.lifecycle = ((undecoratedOf members).filter uCondLife).map toName ∧
    m.propsConnect = [] ∧
    m.propsContext = [] ∧
    m.elements = dContrib "Element" (decoratedOf members) ∧
    m.states = dContrib "State" (decoratedOf members) ∧
    m.events = dContrib "Event" (decoratedOf members) ∧
    m.methods = dContrib "Method" (decoratedOf members) ∧
    m.props = dContrib "Prop" (decoratedOf members) ∧
    watchHandlers m = dContrib "Watch" (decoratedOf members) ∧
    listenHandlers m = dContrib "Listen" (decoratedOf members) := by
  have hg := gather_singleClass _ _ _ _ hcomp h
  obtain ⟨e1, e2, e3, e4, e5, e6, e7, e8, e9, e10, e11, e12, _⟩ :=
    gatherClassMeta_ok _ _ _ _ hg
  simpa [emptyMeta, watchHandlers, listenHandlers] using
    ⟨e1, e2, e3, e4, e5, e6, e7, e8, e9, e10, e11, e12⟩

mutual

theorem visit_pc : ∀ (t : Node) (meta m : DocumentMeta), visit meta t = .ok m →
    m.propsConnect = meta.propsConnect ∧ m.propsContext = meta.propsContext
  | .classDecl nm cds members children, meta, m => by
    intro h
    unfold visit at h
    split at h
    case isTrue hcomp =>
      split at h
      case h_1 e hg => exact absurd h (by simp)
      case h_2 meta2 hg =>
        have h2 := visit_pc_list children meta2 m h
        cases nm with
        | none => exact absurd hg (by simp [gatherClassMeta])
        | some nm2 =>
          obtain ⟨_, _, _, p4, p5, _⟩ := gatherClassMeta_ok _ _ _ _ hg
          exact ⟨h2.1.trans p4, h2.2.trans p5⟩
    case isFalse hcomp => exact visit_pc_list children meta m h
  | .other children, meta, m => by
    intro h
    exact visit_pc_list children meta m (by simpa [visit] using h)

theorem visit_pc_list : ∀ (ts : List Node) (meta m : DocumentMeta), visitList meta ts = .ok m →
    m.propsConnect = meta.propsConnect ∧ m.propsContext = meta.propsContext
  | [], meta, m => by
    intro h
    simp only [visitList, Except.ok.injEq] at h
    cases h
    exact ⟨rfl, rfl⟩
  | t :: ts, meta, m => by
    intro h
    unfold visitList at h
    split at h
    case h_1 e hg => exact absurd h (by simp)
    case h_2 meta2 hg =>
      have h1 := visit_pc t meta meta2 hg
      have h2 := visit_pc_list ts meta2 m h
      exact ⟨h2.1.trans h1.1, h2.2.trans h1.2⟩

end

theorem gather_pc_empty (tree : Node) (m : DocumentMeta)
    (h : gatherDocumentMeta tree = .ok m) :
    m.propsConnect = [] ∧ m.propsContext = [] := by
  have := visit_pc tree emptyMeta m h
  simpa [emptyMeta] using this


theorem contains_some_iff (l : List ClassElement) (c : ClassElement → Bool) (s : String) :
    ((l.filter c).map toName).contains (some s) = true ↔
      ∃ mb, mb ∈ l ∧ c mb = true ∧ toName mb = some s := by
  rw [List.elem_iff]
  simp only [List.mem_map, List.mem_filter]
  constructor
  · rintro ⟨mb, ⟨h1, h2⟩, h3⟩
    exact ⟨mb, h1, h2, h3⟩
  · rintro ⟨mb, h1, h2, h3⟩
    exact ⟨mb, ⟨h1, h2⟩, h3⟩

theorem contains_unique (members : List ClassElement) (c : ClassElement → Bool) (s : String)
    (mb : ClassElement) (hmb : mb ∈ members) (hname : toName mb = some s)
    (huniq : ∀ mb', mb' ∈ members → toName mb' = some s → mb' = mb) :
    ((members.filter c).map toName).contains (some s) = c mb := by
  cases hc : c mb with
  | true => exact (contains_some_iff members c s).mpr ⟨mb, hmb, hc, hname⟩
  | false =>
    rw [Bool.eq_false_iff]
    intro hcon
    obtain ⟨mb', h1, h2, h3⟩ := (contains_some_iff members c s).mp hcon
    rw [huniq mb' h1 h3] at h2
    rw [hc] at h2
    exact Bool.false_ne_true h2

theorem contains_none (members : List ClassElement) (c : ClassElement → Bool) (s : String)
    (hnone : ¬ ∃ mb, mb ∈ members ∧ toName mb = some s) :
    ((members.filter c).map toName).contains (some s) = false := by
  rw [Bool.eq_false_iff]
  intro hcon
  obtain ⟨mb', h1, _, h3⟩ := (contains_some_iff members c s).mp hcon
  exact hnone ⟨mb', h1, h3⟩

theorem two_le_length_of_mem_ne {α : Type} {a b : α} {l : List α}
    (ha : a ∈ l) (hb : b ∈ l) (hne : a ≠ b) : 2 ≤ l.length := by
  induction l with
  | nil => cases ha
  | cons x xs ih =>
    rcases List.mem_cons.mp ha with rfl | ha2
    · rcases List.mem_cons.mp hb with rfl | hb2
      · exact absurd rfl hne
      · have := List.length_pos_of_mem hb2
        simp only [List.length_cons]
        omega
    · rcases List.mem_cons.mp hb with rfl | hb2
      · have := List.length_pos_of_mem ha2
        simp only [List.length_cons]
        omega
      · have := ih ha2 hb2
        simp only [List.length_cons]
        omega

/-- C1 (amended): in the model extracted from a single component class whose
members have pairwise distinct identifier names and each carry at most one
recognized role annotation, a member name appears in at most one of the nine
buckets (internalProperties, internalMethods, elements, states, props,
propsConnect, propsContext, methods, lifecycle), and a watch/listen handler
name appears in no bucket at all. -/
theorem c1_bucket_exclusivity (nm : NameExpr) (cds : Option (List Decorator))
    (members : List ClassElement) (m : DocumentMeta)
    (hcomp : isComponentClass (Node.classDecl (some nm) cds members []) = true)
    (hok : gatherDocumentMeta (Node.classDecl (some nm) cds members []) = .ok m)
    (huniq : ∀ s : String, (members.filter (fun mb => toName mb == some s)).length ≤ 1)
    (hrole : ∀ mb ∈ members, recognizedRoles.countP (fun r => hasDecoratorNamed mb.decorators r) ≤ 1) :
    ∀ s : String, bucketCount m s ≤ 1 ∧
      (((watchHandlers m).contains (some s) || (listenHandlers m).contains (some s)) = true →
        bucketCount m s = 0) := by
  obtain ⟨e1, e2, e3, e4, e5, e6, e7, e8, e9, e10, e11, e12⟩ :=
    gather_singleClass_buckets _ _ _ _ hcomp hok
  rw [undecoratedOf, List.filter_filter] at e1 e2 e3
  rw [dContrib, decoratedOf, List.filter_filter] at e6 e7 e8 e9 e10 e11 e12
  intro s
  by_cases hex : ∃ mb, mb ∈ members ∧ toName mb = some s
  · obtain ⟨mb, hmb, hname⟩ := hex
    have huu : ∀ mb', mb' ∈ members → toName mb' = some s → mb' = mb := by
      intro mb' h1 h2
      by_contra hne
      have hf1 : mb' ∈ members.filter (fun x => toName x == some s) :=
        List.mem_filter.mpr ⟨h1, by simp [h2]⟩
      have hf2 : mb ∈ members.filter (fun x => toName x == some s) :=
        List.mem_filter.mpr ⟨hmb, by simp [hname]⟩
      have h2le := two_le_length_of_mem_ne hf1 hf2 hne
      have := huniq s
      omega
    have hip : m.internalProperties.contains (some s) =
        (uCondIntProp mb && mb.decorators.isNone) := by
      rw [e1]; exact contains_unique _ _ _ _ hmb hname huu
    have him : m.internalMethods.contains (some s) =
        (uCondIntMeth mb && mb.decorators.isNone) := by
      rw [e2]; exact contains_unique _ _ _ _ hmb hname huu
    have hlf : m.lifecycle.contains (some s) =
        (uCondLife mb && mb.decorators.isNone) := by
      rw [e3]; exact contains_unique _ _ _ _ hmb hname huu
    have hel : m.elements.contains (some s) =
        (hasDecoratorNamed mb.decorators "Element" && mb.decorators.isSome) := by
      rw [e6]; exact contains_unique _ _ _ _ hmb hname huu
    have hst : m.states.contains (some s) =
        (hasDecoratorNamed mb.decorators "State" && mb.decorators.isSome) := by
      rw [e7]; exact contains_unique _ _ _ _ hmb hname huu
    have hmt : m.methods.contains (some s) =
        (hasDecoratorNamed mb.decorators "Method" && mb.decorators.isSome) := by
      rw [e9]; exact contains_unique _ _ _ _ hmb hname huu
    have hpr : m.props.contains (some s) =
        (hasDecoratorNamed mb.decorators "Prop" && mb.decorators.isSome) := by
      rw [e10]; exact contains_unique _ _ _ _ hmb hname huu
    have hwa : (watchHandlers m).contains (some s) =
        (hasDecoratorNamed mb.decorators "Watch" && mb.decorators.isSome) := by
      rw [e11]; exact contains_unique _ _ _ _ hmb hname huu
    have hli : (listenHandlers m).contains (some s) =
        (hasDecoratorNamed mb.decorators "Listen" && mb.decorators.isSome) := by
      rw [e12]; exact contains_unique _ _ _ _ hmb hname huu
    have hpc : m.propsConnect.contains (some s) = false := by rw [e4]; rfl
    have hpx : m.propsContext.contains (some s) = false := by rw [e5]; rfl
    have hrole2 := hrole mb hmb
    simp only [recognizedRoles, List.countP_cons, List.countP_nil] at hrole2
    simp only [bucketCount, bucketsOf, List.countP_cons, List.countP_nil,
      hip, him, hlf, hel, hst, hmt, hpr, hpc, hpx, hwa, hli]
    clear hok hcomp huniq hrole e1 e2 e3 e4 e5 e6 e7 e8 e9 e10 e11 e12
    clear hip him hlf hel hst hmt hpr hwa hli hpc hpx huu hmb hname
    have hdnone : ∀ r : String, hasDecoratorNamed none r = false := fun _ => rfl
    cases hdec : mb.decorators with
    | none =>
      clear hrole2
      simp only [hdec, hdnone, Option.isNone_none, Option.isSome_none,
        Bool.and_true, Bool.and_false]
      simp only [uCondIntProp, uCondIntMeth, uCondLife]
      have hkx : (mb.kind == MemberKind.propertyDecl) = true →
          (mb.kind == MemberKind.methodDecl) = false := by
        cases mb.kind <;> simp
      rcases Bool.eq_false_or_eq_true (jsIncludesName componentBuiltinMethods (toName mb)) with hb1 | hb1 <;>
        rcases Bool.eq_false_or_eq_true (jsIncludesName componentLifecycleMethods (toName mb)) with hb2 | hb2 <;>
        rcases Bool.eq_false_or_eq_true (mb.kind == MemberKind.propertyDecl) with hb3 | hb3 <;>
        rcases Bool.eq_false_or_eq_true (mb.kind == MemberKind.methodDecl) with hb4 | hb4 <;>
        simp only [hb1, hb2, hb3, hb4] <;>
        first
          | decide
          | (exact absurd (hkx hb3) (by rw [hb4]; decide))
    | some ds =>
      simp only [hdec, Option.isNone_some, Option.isSome_some, Bool.and_true,
        Bool.and_false]
      simp only [hdec] at hrole2
      rcases Bool.eq_false_or_eq_true (hasDecoratorNamed (some ds) "Element") with hb1 | hb1 <;>
        rcases Bool.eq_false_or_eq_true (hasDecoratorNamed (some ds) "State") with hb2 | hb2 <;>
        rcases Bool.eq_false_or_eq_true (hasDecoratorNamed (some ds) "Watch") with hb3 | hb3 <;>
        rcases Bool.eq_false_or_eq_true (hasDecoratorNamed (some ds) "Listen") with hb4 | hb4 <;>
        rcases Bool.eq_false_or_eq_true (hasDecoratorNamed (some ds) "Event") with hb5 | hb5 <;>
        rcases Bool.eq_false_or_eq_true (hasDecoratorNamed (some ds) "Method") with hb6 | hb6 <;>
        rcases Bool.eq_false_or_eq_true (hasDecoratorNamed (some ds) "Prop") with hb7 | hb7 <;>
        simp only [hb1, hb2, hb3, hb4, hb5, hb6, hb7] at hrole2 ⊢ <;>
        first
          | decide
          | (exact absurd hrole2 (by decide))
  · push_neg at hex
    have hnone : ¬ ∃ mb, mb ∈ members ∧ toName mb = some s := by
      rintro ⟨mb, h1, h2⟩
      exact hex mb h1 h2
    have hcn : ∀ c : ClassElement → Bool,
        ((members.filter c).map toName).contains (some s) = false :=
      fun c => contains_none members c s hnone
    simp only [bucketCount, bucketsOf, List.countP_cons, List.countP_nil,
      e1, e2, e3, e4, e5, e6, e7, e8, e9, e10, e11, e12]
    have hnil : (([] : List (Option String)).contains (some s)) = false := rfl
    constructor
    · simp only [hcn, hnil]
      decide
    · intro hcond
      rw [hcn, hcn] at hcond
      simp at hcond

/-- C8 (amended): when the name under the cursor is the observed prop of a
watched entry, find-references appends exactly one additional string-literal
reference record, non-definition, write-access, in-string, located at the
first double-quoted occurrence of the name, or, when no double-quoted
occurrence exists, at the first single-quoted occurrence; when the name is
not a watched prop the host's list is returned unmodified. -/
theorem c8_find_references_append :
    (∀ (fileName : String) (sf : SourceFile) (cursor : CursorNode) (p0 : ReferencedSymbol)
      (rest : List ReferencedSymbol) (meta : DocumentMeta) (t : String) (d : Nat),
      gatherDocumentMeta sf.tree = .ok meta →
      cursorText cursor = some t →
      meta.watched.any (fun w => w.prop == some t) = true →
      jsStrIndexOf sf.text ("\"" ++ t ++ "\"") = (d : Int) →
      proxyFindReferences fileName sf cursor (p0 :: rest) =
        .ok ((p0 :: rest) ++
          [⟨p0.definition, [⟨fileName, (d : Int) + 1, t.length, false, true, true⟩]⟩])) ∧
    (∀ (fileName : String) (sf : SourceFile) (cursor : CursorNode) (p0 : ReferencedSymbol)
      (rest : List ReferencedSymbol) (meta : DocumentMeta) (t : String) (d : Nat),
      gatherDocumentMeta sf.tree = .ok meta →
      cursorText cursor = some t →
      meta.watched.any (fun w => w.prop == some t) = true →
      jsStrIndexOf sf.text ("\"" ++ t ++ "\"") = -1 →
      jsStrIndexOf sf.text ("'" ++ t ++ "'") = (d : Int) →
      proxyFindReferences fileName sf cursor (p0 :: rest) =
        .ok ((p0 :: rest) ++
          [⟨p0.definition, [⟨fileName, (d : Int) + 1, t.length, false, true, true⟩]⟩])) ∧
    (∀ (fileName : String) (sf : SourceFile) (cursor : CursorNode)
      (prior : List ReferencedSymbol) (meta : DocumentMeta) (t : String),
      gatherDocumentMeta sf.tree = .ok meta →
      cursorText cursor = some t →
      meta.watched.any (fun w => w.prop == some t) = false →
      proxyFindReferences fileName sf cursor prior = .ok prior) := by
  refine ⟨?_, ?_, ?_⟩
  · intro fileName sf cursor p0 rest meta t d hg hc hw hd
    unfold proxyFindReferences
    rw [hg, hc]
    simp only [hw, if_true]
    rw [hd]
    have h1 : (!decide ((d : Int) > -1)) = false := by
      simp only [Bool.not_eq_false', decide_eq_true_eq]
      omega
    simp only [h1, Bool.false_eq_true, if_false]
    rw [if_pos (show (d : Int) > -1 by omega)]
  · intro fileName sf cursor p0 rest meta t d hg hc hw hd hs
    unfold proxyFindReferences
    rw [hg, hc]
    simp only [hw, if_true]
    rw [hd]
    have h1 : (!decide ((-1 : Int) > -1)) = true := by decide
    simp only [h1, if_true]
    rw [hs]
    rw [if_pos (show (d : Int) > -1 by omega)]
  · intro fileName sf cursor prior meta t hg hc hw
    unfold proxyFindReferences
    rw [hg, hc]
    simp [hw]

theorem mapGet_mapSet (entries : List (String × CompletionEntryDetails))
    (name : String) (v : CompletionEntryDetails) :
    mapGet (mapSet entries name v) name = some v := by
  unfold mapGet mapSet
  split_ifs with h
  · induction entries with
    | nil => simp at h
    | cons p l ih =>
      simp only [List.map_cons, List.find?]
      by_cases hp : (p.1 == name) = true
      · simp only [hp, if_true]
        simp
      · simp only [hp, if_false, Bool.false_eq_true]
        simp only [List.any_cons, hp, Bool.false_or] at h
        exact ih h
  · induction entries with
    | nil => simp
    | cons p l ih =>
      simp only [List.any_cons, Bool.or_eq_true, not_or] at h
      simp only [List.cons_append, List.find?]
      have hp : (p.1 == name) = false := by
        cases hq : (p.1 == name)
        · rfl
        · exact absurd hq h.1
      simp only [hp]
      exact ih h.2

/-- C9: the detail cache is scoped per (file, position): a request with a new
(file, position) pair ends with exactly the one fresh entry in the cache
(all prior entries cleared); and after any successful request, a second
request for the same (file, position, name) returns the cached result and
does not invoke the underlying collaborator lookup (hostCalled = false). -/
theorem c9_detail_cache :
    (∀ (st : DetailCacheState) (tree : Node) (host : CompletionEntryDetails)
      (f : String) (p : Int) (n : String) (r : DetailCallResult),
      (st.fileName == some f && st.position == some p) = false →
      getCompletionEntryDetailsProxy st tree host f p n = .ok r →
      ∃ d, r.result = some d ∧ r.state.entries = [(n, d)] ∧
        r.state.fileName = some f ∧ r.state.position = some p ∧
        r.state.names = some [n] ∧ r.hostCalled = true) ∧
    (∀ (st : DetailCacheState) (tree tree2 : Node) (host host2 : CompletionEntryDetails)
      (f : String) (p : Int) (n : String) (r1 : DetailCallResult),
      getCompletionEntryDetailsProxy st tree host f p n = .ok r1 →
      getCompletionEntryDetailsProxy r1.state tree2 host2 f p n =
        .ok ⟨r1.result, r1.state, false⟩) := by
  constructor
  · intro st tree host f p n r hne h
    unfold getCompletionEntryDetailsProxy at h
    rw [hne] at h
    simp only [Bool.false_eq_true, if_false] at h
    unfold detailMissPath at h
    split at h
    next => exact absurd h (by simp)
    next meta hg =>
      split at h
      next => exact absurd h (by simp)
      next res ht =>
        rw [hne] at h
        simp only [Bool.false_eq_true, if_false, Except.ok.injEq] at h
        subst h
        exact ⟨res, rfl, by simp [mapSet], rfl, rfl, rfl, rfl⟩
  · intro st tree tree2 host host2 f p n r1 h
    unfold getCompletionEntryDetailsProxy at h
    cases hcond : (st.fileName == some f && st.position == some p) with
    | true =>
      rw [hcond] at h
      simp only [if_true] at h
      cases hns : st.names with
      | none => rw [hns] at h; exact absurd h (by simp)
      | some ns =>
        rw [hns] at h
        by_cases hin : ns.contains n = true
        · simp only [hin, if_true] at h
          simp only [Except.ok.injEq] at h
          subst h
          unfold getCompletionEntryDetailsProxy
          simp only [hcond, if_true, hns, hin]
        · simp only [hin] at h
          simp only [Bool.false_eq_true, if_false] at h
          unfold detailMissPath at h
          split at h
          next => exact absurd h (by simp)
          next meta hg =>
            split at h
            next => exact absurd h (by simp)
            next res ht =>
              rw [hcond] at h
              simp only [if_true, hns, Except.ok.injEq] at h
              subst h
              unfold getCompletionEntryDetailsProxy
              have hb1 : (st.fileName == some f) = true := by
                rcases Bool.and_eq_true_iff.mp hcond with ⟨h1, _⟩
                exact h1
              have hb2 : (st.position == some p) = true := by
                rcases Bool.and_eq_true_iff.mp hcond with ⟨_, h2⟩
                exact h2
              simp only [hb1, hb2, Bool.and_self, if_true]
              have hin2 : (ns ++ [n]).contains n = true := by simp
              simp only [hin2, if_true]
              rw [mapGet_mapSet]
    | false =>
      rw [hcond] at h
      simp only [Bool.false_eq_true, if_false] at h
      unfold detailMissPath at h
      split at h
      next => exact absurd h (by simp)
      next meta hg =>
        split at h
        next => exact absurd h (by simp)
        next res ht =>
          rw [hcond] at h
          simp only [Bool.false_eq_true, if_false, Except.ok.injEq] at h
          subst h
          unfold getCompletionEntryDetailsProxy
          simp only [beq_self_eq_true, Bool.and_self, if_true]
          have hin2 : ([n] : List String).contains n = true := by simp
          simp only [hin2, if_true]
          rw [mapGet_mapSet]

theorem pd_id (meta : DocumentMeta) (mb : ClassElement)
    (hnone : ∀ r ∈ recognizedRoles, hasDecoratorNamed mb.decorators r = false) :
    processDecoratedMember meta mb = .ok meta := by
  have hE := hnone "Element" (by decide)
  have hS := hnone "State" (by decide)
  have hW := hnone "Watch" (by decide)
  have hL := hnone "Listen" (by decide)
  have hEv := hnone "Event" (by decide)
  have hM := hnone "Method" (by decide)
  have hP := hnone "Prop" (by decide)
  unfold processDecoratedMember stepElement stepState stepWatch stepListen stepEvent
    stepMethod stepProp
  simp only [hE, hS, hW, hL, hEv, hM, hP, Bool.false_eq_true, if_false]

theorem foldlM_pd_middle (l1 l2 : List ClassElement) (mb : ClassElement)
    (hid : ∀ m' : DocumentMeta, processDecoratedMember m' mb = .ok m') :
    ∀ meta : DocumentMeta,
      (l1 ++ mb :: l2).foldlM processDecoratedMember meta =
        (l1 ++ l2).foldlM processDecoratedMember meta := by
  induction l1 with
  | nil =>
    intro meta
    simp only [List.nil_append, List.foldlM_cons, hid, except_bind_ok]
  | cons x l1 ih =>
    intro meta
    simp only [List.cons_append, List.foldlM_cons]
    cases hx : processDecoratedMember meta x with
    | error e => rfl
    | ok m1 =>
      simp only [except_bind_ok]
      exact ih m1

theorem gatherClassMeta_insert_invisible (meta : DocumentMeta) (nm : Option NameExpr)
    (ms1 ms2 : List ClassElement) (mb : ClassElement) (ds : List Decorator)
    (hds : mb.decorators = some ds)
    (hnone : ∀ r ∈ recognizedRoles, hasDecoratorNamed mb.decorators r = false) :
    gatherClassMeta meta nm (ms1 ++ mb :: ms2) = gatherClassMeta meta nm (ms1 ++ ms2) := by
  unfold gatherClassMeta
  cases nm with
  | none => rfl
  | some nm2 =>
    dsimp only
    have hu : (ms1 ++ mb :: ms2).filter (fun m => m.decorators.isNone) =
        (ms1 ++ ms2).filter (fun m => m.decorators.isNone) := by
      rw [List.filter_append, List.filter_append, List.filter_cons]
      simp [hds]
    have hd : (ms1 ++ mb :: ms2).filter (fun m => m.decorators.isSome) =
        ms1.filter (fun m => m.decorators.isSome) ++ mb ::
          ms2.filter (fun m => m.decorators.isSome) := by
      rw [List.filter_append, List.filter_cons]
      simp [hds]
    have hd2 : (ms1 ++ ms2).filter (fun m => m.decorators.isSome) =
        ms1.filter (fun m => m.decorators.isSome) ++
          ms2.filter (fun m => m.decorators.isSome) := List.filter_append _ _
    rw [hu, hd, hd2]
    exact foldlM_pd_middle _ _ mb (fun m' => pd_id m' mb hnone) _

theorem gather_insert_invisible (nm : Option NameExpr) (cds : Option (List Decorator))
    (ms1 ms2 : List ClassElement) (mb : ClassElement) (ds : List Decorator)
    (hds : mb.decorators = some ds)
    (hnone : ∀ r ∈ recognizedRoles, hasDecoratorNamed mb.decorators r = false) :
    gatherDocumentMeta (Node.classDecl nm cds (ms1 ++ mb :: ms2) []) =
      gatherDocumentMeta (Node.classDecl nm cds (ms1 ++ ms2) []) := by
  unfold gatherDocumentMeta visit
  have hcomp : isComponentClass (Node.classDecl nm cds (ms1 ++ mb :: ms2) []) =
      isComponentClass (Node.classDecl nm cds (ms1 ++ ms2) []) := by
    cases cds with
    | none => rfl
    | some l => rfl
  rw [hcomp, gatherClassMeta_insert_invisible _ _ _ _ _ _ hds hnone]

/-- C1 (counterexample): a member carrying both the Element and the State
role annotations is placed in two buckets, so its name appears in more than
one bucket of the extracted model. -/
theorem c1_counterexample :
    (gatherDocumentMeta c1Tree).map (fun m => bucketCount m "x") = .ok 2 := by rfl

theorem c1_bucket_exclusivity_witness : bucketCount c1wMeta "el" ≤ 1 :=
  (c1_bucket_exclusivity (.ident "MyComponent") (some [componentDec]) [c1wMember] c1wMeta
    (by decide) rfl
    (fun s => le_trans (List.length_filter_le _ _) (by decide))
    (fun mb hmb => by
      rcases List.mem_singleton.mp hmb with rfl
      decide) "el").1

/-- C2 (amended): the propsConnect and propsContext sequences are never
populated by extraction — they are empty in every successfully extracted
model — while elements, states, props, events and methods are populated
from the decorated members carrying the corresponding role annotation
(a Prop annotation with a connect or context option still goes to props). -/
theorem c2_role_population :
    (∀ (tree : Node) (m : DocumentMeta), gatherDocumentMeta tree = .ok m →
      m.propsConnect = [] ∧ m.propsContext = []) ∧
    (∀ (nm : NameExpr) (cds : Option (List Decorator)) (members : List ClassElement)
      (m : DocumentMeta),
      isComponentClass (Node.classDecl (some nm) cds members []) = true →
      gatherDocumentMeta (Node.classDecl (some nm) cds members []) = .ok m →
      m.elements = dContrib "Element" (decoratedOf members) ∧
      m.states = dContrib "State" (decoratedOf members) ∧
      m.props = dContrib "Prop" (decoratedOf members) ∧
      m.events = dContrib "Event" (decoratedOf members) ∧
      m.methods = dContrib "Method" (decoratedOf members)) := by
  constructor
  · intro tree m h
    exact gather_pc_empty tree m h
  · intro nm cds members m hcomp hok
    obtain ⟨_, _, _, _, _, e6, e7, e8, e9, e10, _⟩ :=
      gather_singleClass_buckets nm cds members m hcomp hok
    exact ⟨e6, e7, e10, e8, e9⟩

/-- C2 (counterexample): a member whose Prop annotation carries a connect
option is appended to props, and propsConnect stays empty. -/
theorem c2_counterexample :
    specPropConnectRole c2Member = true ∧
    (gatherDocumentMeta c2Tree).map (fun m => (m.propsConnect, m.propsContext, m.props)) =
      .ok ([], [], [some "conn"]) := ⟨rfl, rfl⟩

theorem c2_role_population_witness :
    c2wMeta.propsConnect = [] ∧ c2wMeta.propsContext = [] :=
  c2_role_population.1 c2Tree c2wMeta rfl

/-- C3 (amended): extraction processes the members of every component class
encountered in the tree, merging all contributions into one model, with
className overwritten by each successive component class; traversal
continues into all other nodes of the tree. -/
theorem c3_all_components_processed (n1 n2 : String) :
    gatherDocumentMeta (twoComponentTree n1 n2) =
      .ok { emptyMeta with className := some "B", states := [some n1, some n2] } := by
  rfl

/-- C3 (counterexample): in a tree with two component classes the second
class's member is also processed (its state lands in the model), refuting
that only the first component class has its members processed. -/
theorem c3_counterexample :
    (gatherDocumentMeta (twoComponentTree "a" "b")).map DocumentMeta.states =
      .ok [some "a", some "b"] := by rfl

/-- C4 (amended): a Watch or Listen annotation whose first argument is
present but not a string literal contributes an entry whose observed name is
the non-string placeholder (rather than contributing no entry), and
extraction does not throw; an annotation with no argument at all makes
extraction fail instead of being skipped. -/
theorem c4_malformed_watch_listen (h : String) (v : Int) :
    gatherDocumentMeta (mkComponentClass "C" [watchMemberWithArgs h [.numLit v]]) =
      .ok { emptyMeta with className := some "C", watched := [⟨none, some h⟩] } ∧
    gatherDocumentMeta (mkComponentClass "C" [listenMemberWithArgs h [.numLit v]]) =
      .ok { emptyMeta with className := some "C", listeners := [⟨[none], some h⟩] } ∧
    gatherDocumentMeta (mkComponentClass "C" [watchMemberWithArgs h []]) = .error () ∧
    gatherDocumentMeta (mkComponentClass "C" [listenMemberWithArgs h []]) = .error () :=
  ⟨rfl, rfl, rfl, rfl⟩

/-- C4 (counterexample): a Watch annotation with a numeric first argument
does contribute a watched entry (with a placeholder prop), and a Watch
annotation with no argument throws during extraction. -/
theorem c4_counterexample :
    (gatherDocumentMeta c4NonStringTree).map DocumentMeta.watched =
      .ok [⟨none, some "onX"⟩] ∧
    gatherDocumentMeta c4NoArgTree = .error () := ⟨rfl, rfl⟩

/-- C5: sort keys order first by category in the canonical order with an
unrecognized category last, then alphabetically by member name within any
category other than lifecycle, and within lifecycle by the canonical phase
order componentWillLoad, componentDidLoad, componentWillUpdate,
componentDidUpdate, componentDidUnload. -/
theorem c5_sort_text_order :
    (∀ c1 c2 n1 n2 : String, categoryRank c1 < categoryRank c2 →
      getSortText c1 n1 < getSortText c2 n2) ∧
    (∀ c n1 n2 : String, c ≠ "lifecycle" → n1 < n2 →
      getSortText c n1 < getSortText c n2) ∧
    (getSortText "lifecycle" "componentWillLoad" < getSortText "lifecycle" "componentDidLoad" ∧
     getSortText "lifecycle" "componentDidLoad" < getSortText "lifecycle" "componentWillUpdate" ∧
     getSortText "lifecycle" "componentWillUpdate" < getSortText "lifecycle" "componentDidUpdate" ∧
     getSortText "lifecycle" "componentDidUpdate" < getSortText "lifecycle" "componentDidUnload") :=
  ⟨getSortText_rank_lt, getSortText_name_lt,
   String.lt_iff_toList_lt.mpr (by decide), String.lt_iff_toList_lt.mpr (by decide),
   String.lt_iff_toList_lt.mpr (by decide), String.lt_iff_toList_lt.mpr (by decide)⟩

theorem c5_sort_text_order_witness :
    getSortText "own property" "zzz" < getSortText "element" "aaa" ∧
    getSortText "state" "alpha" < getSortText "state" "beta" :=
  ⟨c5_sort_text_order.1 "own property" "element" "zzz" "aaa" (by decide),
   c5_sort_text_order.2.1 "state" "alpha" "beta" (by decide)
     (String.lt_iff_toList_lt.mpr (by decide))⟩

/-- C6 (code bug evaluation): a detail request whose raw result has kind
"property" and whose name is found in no bucket of the model makes the
transformation throw (the category lookup's undefined result is
destructured), instead of returning the raw result unchanged. -/
theorem c6_unmatched_name_throws :
    getCompletionEntryDetailsProxy initialDetailCache c6Tree c6Host "file.tsx" 10 "zzz" =
      .error () := by rfl

/-- C7 (amended): checkType applies the predicate to the type itself and,
through union nodes, to all their members: it returns true iff the predicate
holds of some type in that reachable set — for a union this includes the
union node itself, not only the flattened member types. -/
theorem c7_checkType_reach (t : TSType) (p : TSType → Bool) :
    checkType t p = (unionReach t).any p :=
  checkType_eq_reach t p

/-- C7 (counterexample): for the predicate testing the union flag on a
one-member union, checkType returns true although the predicate is false on
every flattened member type. -/
theorem c7_counterexample :
    checkType c7Type c7Pred = true ∧
    (flattenUnion c7Type).all (fun s => !(c7Pred s)) = true := ⟨rfl, rfl⟩

/-- C8 (counterexample): with source text containing a single-quoted
occurrence of the watched name before a double-quoted one, the appended
reference points at the double-quoted occurrence (start 5), not at the first
occurrence in either quoting style (start 1). -/
theorem c8_counterexample :
    proxyFindReferences "f.tsx" c8Source (.identNode "x") c8Prior =
      .ok (c8Prior ++ [⟨"decl", [⟨"f.tsx", 5, 1, false, true, true⟩]⟩]) ∧
    specFirstQuotedIndex c8Source.text "x" = some 0 ∧
    ((0 : Int) + 1 ≠ 5) := ⟨rfl, rfl, by decide⟩

theorem c8_find_references_append_witness :
    proxyFindReferences "f.tsx" c8Source (.identNode "x") c8Prior =
      .ok (c8Prior ++ [⟨"decl", [⟨"f.tsx", ((4 : Nat) : Int) + 1, "x".length,
        false, true, true⟩]⟩]) :=
  c8_find_references_append.1 "f.tsx" c8Source (.identNode "x") ⟨"decl", []⟩ []
    { emptyMeta with className := some "C", watched := [⟨some "x", some "onNameChange"⟩] }
    "x" 4 rfl rfl (by decide) rfl

theorem c9_detail_cache_witness :
    getCompletionEntryDetailsProxy c9FirstState c6Tree c9Host "a.ts" 7 "n" =
      .ok ⟨some c9Host, c9FirstState, false⟩ :=
  c9_detail_cache.2 initialDetailCache c6Tree c6Tree c9Host c9Host "a.ts" 7 "n"
    ⟨some c9Host, c9FirstState, true⟩ rfl

/-- C10: a decorated member carrying none of the recognized role annotations
contributes nothing to the model (removing it does not change extraction at
all), and the internalProperties, internalMethods and lifecycle buckets are
populated only from members with no decorators. -/
theorem c10_undecorated_only :
    (∀ (nm : Option NameExpr) (cds : Option (List Decorator))
      (ms1 ms2 : List ClassElement) (mb : ClassElement) (ds : List Decorator),
      mb.decorators = some ds →
      (∀ r ∈ recognizedRoles, hasDecoratorNamed mb.decorators r = false) →
      gatherDocumentMeta (Node.classDecl nm cds (ms1 ++ mb :: ms2) []) =
        gatherDocumentMeta (Node.classDecl nm cds (ms1 ++ ms2) [])) ∧
    (∀ (nm : NameExpr) (cds : Option (List Decorator)) (members : List ClassElement)
      (m : DocumentMeta),
      isComponentClass (Node.classDecl (some nm) cds members []) = true →
      gatherDocumentMeta (Node.classDecl (some nm) cds members []) = .ok m →
      m.internalProperties = ((undecoratedOf members).filter uCondIntProp).map toName ∧
      m.internalMethods = ((undecoratedOf members).filter uCondIntMeth).map toName ∧
      m.lifecycle = ((undecoratedOf members).filter uCondLife).map toName) := by
  constructor
  · intro nm cds ms1 ms2 mb ds hds hnone
    exact gather_insert_invisible nm cds ms1 ms2 mb ds hds hnone
  · intro nm cds members m hcomp hok
    obtain ⟨e1, e2, e3, _⟩ := gather_singleClass_buckets nm cds members m hcomp hok
    exact ⟨e1, e2, e3⟩

theorem c10_undecorated_only_witness :
    gatherDocumentMeta c10TreeWith = gatherDocumentMeta c10TreeWithout :=
  c10_undecorated_only.1 (some (.ident "C")) (some [componentDec])
    [stateMemberNamed "a"] [] c10Member [⟨.callIdent "Foo" []⟩] rfl (by decide)
